import Mathlib

/-!
Verification of the group-agnostic protocol layer of the repository:
ElGamal encryption, the Schnorr and Chaum-Pedersen sigma protocols, the
binary-value proof, and the verifiable-shuffle proof.

The Rust code is generic over a CryptoGroup trait (src/traits/group.rs)
providing an Element type (a cyclic group written additively), a Scalar
type (its prime-order exponent field), a fixed generator, and a
deterministic hash_to_scalar map used for every Fiat-Shamir challenge.
We embed this by instantiating both Element and Scalar with ZMod q
(the generic cyclic group of order q, written additively; scalar
multiplication is ring multiplication), and by carrying the remaining
capabilities of the trait -- the generator, the element and scalar
serializers feeding the transcript, and hash_to_scalar -- in a structure
MGroup over which every protocol definition is parameterized, exactly as
the Rust functions are parameterized over G: CryptoGroup.  Bytes are
modelled as natural numbers, byte strings as lists.

Protocol definitions below are direct transcriptions of the Rust
functions named in the comments.
-/

namespace Exact

/-- Model of the CryptoGroup capability (src/traits/group.rs):
a generator, the serializers used to build Fiat-Shamir transcripts,
and the hash_to_scalar map (taking an ordered list of byte slices). -/
structure MGroup (q : ℕ) where
  gen : ZMod q
  serE : ZMod q → List ℕ
  serS : ZMod q → List ℕ
  hashToScalar : List (List ℕ) → ZMod q

/-- Element.scalar_mul (src/traits/element.rs): in the ZMod q model of the
cyclic group, e.scalar_mul(s) is s * e. -/
def scalarMul {q : ℕ} (e s : ZMod q) : ZMod q := s * e

/-- Element.add_element in the ZMod q model. -/
def addElement {q : ℕ} (a b : ZMod q) : ZMod q := a + b

/-- Element.negate_element in the ZMod q model. -/
def negateElement {q : ℕ} (a : ZMod q) : ZMod q := -a

/-- Element.identity in the ZMod q model. -/
def identityElement (q : ℕ) : ZMod q := 0

/-! ## ElGamal (src/elgamal.rs) -/

/-- KeyPair (src/elgamal.rs): a pair of the public element and the secret
scalar. -/
structure KeyPair (q : ℕ) where
  pkey : ZMod q
  skey : ZMod q

/-- KeyPair::new (src/elgamal.rs, lines 86-95): the random secret scalar is
passed explicitly; the public element is generator^secret. -/
def KeyPair.create {q : ℕ} (G : MGroup q) (secret : ZMod q) : KeyPair q :=
  { pkey := scalarMul G.gen secret, skey := secret }

/-- An ElGamal ciphertext: the pair (g^r, m * pk^r) (src/elgamal.rs). -/
structure ElGamalCt (q : ℕ) where
  gr : ZMod q
  mhr : ZMod q
deriving DecidableEq

/-- Encryptable::encrypt for a message element (src/elgamal.rs, lines
142-155); the fresh random nonce r is passed explicitly. -/
def encrypt {q : ℕ} (G : MGroup q) (message : ZMod q) (key : KeyPair q)
    (r : ZMod q) : ElGamalCt q :=
  let gr := scalarMul G.gen r
  let yPowR := scalarMul key.pkey r
  let mhr := addElement message yPowR
  { gr := gr, mhr := mhr }

/-- Decryptable::decrypt for an ElGamal ciphertext (src/elgamal.rs, lines
163-175): m = mhr * (gr^skey)^{-1}. -/
def decrypt {q : ℕ} (ct : ElGamalCt q) (key : KeyPair q) : ZMod q :=
  let grPowX := scalarMul ct.gr key.skey
  addElement ct.mhr (negateElement grPowX)

/-! ## Schnorr proof (src/zkp/schnorr.rs) -/

/-- Schnorr Proof: commitment element t and response scalar s
(src/zkp/schnorr.rs). -/
structure SchnorrProof (q : ℕ) where
  t : ZMod q
  s : ZMod q
deriving DecidableEq

/-- The Fiat-Shamir challenge both schnorr::prove and schnorr::verify
compute: hash of the ordered byte slices for (g, y, t). -/
def schnorrChallenge {q : ℕ} (G : MGroup q) (y t : ZMod q) : ZMod q :=
  G.hashToScalar [G.serE G.gen, G.serE y, G.serE t]

/-- schnorr::prove (src/zkp/schnorr.rs, lines 70-89); the random scalar v is
passed explicitly. -/
def schnorrProve {q : ℕ} (G : MGroup q) (secretX publicY v : ZMod q) :
    SchnorrProof q :=
  let t := scalarMul G.gen v
  let c := schnorrChallenge G publicY t
  let s := v + c * secretX
  { t := t, s := s }

/-- schnorr::verify (src/zkp/schnorr.rs, lines 91-110). -/
def schnorrVerify {q : ℕ} (G : MGroup q) (publicY : ZMod q)
    (proof : SchnorrProof q) : Bool :=
  let c := schnorrChallenge G publicY proof.t
  let gS := scalarMul G.gen proof.s
  let yC := scalarMul publicY c
  let tPlusYC := addElement proof.t yC
  decide (gS = tPlusYC)

/-! ## Chaum-Pedersen proof (src/zkp/chaum_pedersen.rs) -/

/-- CPProof (src/zkp/chaum_pedersen.rs): two commitment elements t1, t2 and
one response scalar s, stored as Pair(Product([t1, t2]), s). -/
structure CPProof (q : ℕ) where
  t1 : ZMod q
  t2 : ZMod q
  s : ZMod q
deriving DecidableEq

/-- The Fiat-Shamir challenge both chaum_pedersen::prove and
chaum_pedersen::verify compute: hash of the ordered byte slices for
(g1, g2, y1, y2, t1, t2). -/
def cpChallenge {q : ℕ} (G : MGroup q) (g1 g2 y1 y2 t1 t2 : ZMod q) :
    ZMod q :=
  G.hashToScalar
    [G.serE g1, G.serE g2, G.serE y1, G.serE y2, G.serE t1, G.serE t2]

/-- chaum_pedersen::prove (src/zkp/chaum_pedersen.rs, lines 36-69); the
shared random scalar v is passed explicitly. -/
def cpProve {q : ℕ} (G : MGroup q) (secretX g1 g2 y1 y2 v : ZMod q) :
    CPProof q :=
  let t1 := scalarMul g1 v
  let t2 := scalarMul g2 v
  let c := cpChallenge G g1 g2 y1 y2 t1 t2
  let cx := c * secretX
  let s := v + cx
  { t1 := t1, t2 := t2, s := s }

/-- chaum_pedersen::verify (src/zkp/chaum_pedersen.rs, lines 71-110): both
equations g1^s = t1 + y1^c and g2^s = t2 + y2^c are checked against the
single recomputed challenge and combined with a boolean conjunction. -/
def cpVerify {q : ℕ} (G : MGroup q) (g1 g2 y1 y2 : ZMod q)
    (proof : CPProof q) : Bool :=
  let c := cpChallenge G g1 g2 y1 y2 proof.t1 proof.t2
  let check1 := decide (scalarMul g1 proof.s
    = addElement proof.t1 (scalarMul y1 c))
  let check2 := decide (scalarMul g2 proof.s
    = addElement proof.t2 (scalarMul y2 c))
  check1 && check2

/-! ## Fixed-size byte serialization (src/serialization.rs and the
FSerializable impls on the proof types)

Elements and scalars of the model group serialize to a single canonical
byte (their value), with deserialization rejecting a non-canonical byte;
Pair and Product compose by concatenation and splitting at the statically
known componentwise lengths, as in src/serialization.rs. -/

/-- Canonical one-byte element or scalar encoding of the model group. -/
def elWriteB {q : ℕ} (e : ZMod q) : List ℕ := [e.val]

/-- Canonical element or scalar decoding: accepts exactly the bytes below
the group order. -/
def elReadB (q : ℕ) (l : List ℕ) : Option (ZMod q) :=
  match l with
  | [b] => if b < q then some (b : ZMod q) else none
  | _ => none

/-- FSerializable::write_bytes for ElGamal (src/elgamal.rs, lines 61-74):
the concatenation of the two element encodings, via Pair. -/
def elgamalWriteB {q : ℕ} (ct : ElGamalCt q) : List ℕ :=
  elWriteB ct.gr ++ elWriteB ct.mhr

/-- FSerializable::read_bytes for ElGamal (src/elgamal.rs, lines 61-74):
split at the statically known element length and decode both halves. -/
def elgamalReadB (q : ℕ) (l : List ℕ) : Option (ElGamalCt q) :=
  match elReadB q (l.take 1) with
  | none => none
  | some a =>
    match elReadB q (l.drop 1) with
    | none => none
    | some b => some { gr := a, mhr := b }

/-- FSerializable::write_bytes for the Schnorr Proof (src/zkp/schnorr.rs,
lines 53-68): commitment bytes then response bytes, via Pair. -/
def schnorrWriteB {q : ℕ} (proof : SchnorrProof q) : List ℕ :=
  elWriteB proof.t ++ elWriteB proof.s

/-- FSerializable::read_bytes for the Schnorr Proof (src/zkp/schnorr.rs,
lines 53-68). -/
def schnorrReadB (q : ℕ) (l : List ℕ) : Option (SchnorrProof q) :=
  match elReadB q (l.take 1) with
  | none => none
  | some a =>
    match elReadB q (l.drop 1) with
    | none => none
    | some b => some { t := a, s := b }

/-- FSerializable::write_bytes for CPProof (src/zkp/chaum_pedersen.rs,
lines 144-149): the source returns the all-zero buffer
[0u8; ELEMENT_SIZE * 2 + SCALAR_SIZE] instead of serializing the pair
(the pair serialization is left commented out in the source). -/
def cpWriteB {q : ℕ} (_ : CPProof q) : List ℕ :=
  List.replicate (1 * 2 + 1) 0

/-- FSerializable::read_bytes for CPProof (src/zkp/chaum_pedersen.rs,
lines 129-143): parse as Pair(Product([t1, t2]), s). -/
def cpReadB (q : ℕ) (l : List ℕ) : Option (CPProof q) :=
  match elReadB q (l.take 1) with
  | none => none
  | some a =>
    match elReadB q ((l.drop 1).take 1) with
    | none => none
    | some b =>
      match elReadB q (l.drop 2) with
      | none => none
      | some c => some { t1 := a, t2 := b, s := c }

/-! ## Binary-value proof (src/zkp/bit.rs)

The bit proof works in the product group: Product of Element and U2 is a
pair of elements with componentwise operations; a triple of such pairs is
the commitment; the response is four scalars. -/

/-- A pair of group elements, the type Product of Element and U2. -/
abbrev E2 (q : ℕ) := ZMod q × ZMod q

/-- Componentwise add_element on element pairs. -/
def e2Add {q : ℕ} (a b : E2 q) : E2 q := (a.1 + b.1, a.2 + b.2)

/-- Componentwise negate_element on element pairs. -/
def e2Neg {q : ℕ} (a : E2 q) : E2 q := (-a.1, -a.2)

/-- scalar_mul of an element pair by the uniform scalar pair of s
(Product::uniform in the source makes both scalar components equal). -/
def e2Smul {q : ℕ} (s : ZMod q) (a : E2 q) : E2 q :=
  (scalarMul a.1 s, scalarMul a.2 s)

/-- The commitment of the bit proof: a triple of element pairs
(Product of Product of Element and U2, and U3). -/
abbrev Comm3 (q : ℕ) := E2 q × E2 q × E2 q

/-- The response of the bit proof: four scalars (Product of Scalar, U4). -/
abbrev Resp4 (q : ℕ) := ZMod q × ZMod q × ZMod q × ZMod q

/-- The underlying element pair of an ElGamal ciphertext (field 0 of the
ElGamal struct in the source). -/
def ctPair {q : ℕ} (ct : ElGamalCt q) : E2 q := (ct.gr, ct.mhr)

/-- BitProof (src/zkp/bit.rs): Pair of commitment and response. -/
structure BitProof (q : ℕ) where
  commitment : Comm3 q
  response : Resp4 q
deriving DecidableEq

/-- The homomorphism hom (src/zkp/bit.rs, lines 34-62):
f(b,r,s,t) = (H^b G^r, C^b G^s, G^t) in the product group. -/
def hom {q : ℕ} (bigG bigH bigC : E2 q) (b r s t : ZMod q) : Comm3 q :=
  let prod := e2Add (e2Smul b bigH) (e2Smul r bigG)
  let cbGs := e2Add (e2Smul b bigC) (e2Smul s bigG)
  let gPowT := e2Smul t bigG
  (prod, cbGs, gPowT)

/-- Serialization of an element pair into transcript bytes. -/
def serE2 {q : ℕ} (G : MGroup q) (a : E2 q) : List ℕ :=
  G.serE a.1 ++ G.serE a.2

/-- Serialization of a commitment triple into transcript bytes. -/
def serComm3 {q : ℕ} (G : MGroup q) (c : Comm3 q) : List ℕ :=
  serE2 G c.1 ++ serE2 G c.2.1 ++ serE2 G c.2.2

/-- The Fiat-Shamir challenge both bit::prove and bit::verify compute:
hash of the slices for the commitment B, the ciphertext C (the statement)
and C-prime. -/
def bitChallenge {q : ℕ} (G : MGroup q) (bigB : Comm3 q) (ct : ElGamalCt q)
    (cPrime : E2 q) : ZMod q :=
  G.hashToScalar [serComm3 G bigB, serE2 G (ctPair ct), serE2 G cPrime]

/-- bit::prove (src/zkp/bit.rs, lines 64-151); the three random scalars
r, s, t of the commitment vector A are passed explicitly. -/
def bitProve {q : ℕ} (G : MGroup q) (bit rReal sReal : ZMod q)
    (ct : ElGamalCt q) (cPrime : E2 q) (y : ZMod q) (r s t : ZMod q) :
    BitProof q :=
  let generator := G.gen
  let identity := identityElement q
  let bigG : E2 q := (generator, y)
  let bigH : E2 q := (identity, generator)
  let bigA : Resp4 q := (bit, r, s, t)
  let bigB := hom bigG bigH (ctPair ct) bit r s t
  let v := bitChallenge G bigB ct cPrime
  let tReal := (rReal * (bit - 1)) + sReal
  let bigX : Resp4 q := (bit, rReal, sReal, tReal)
  let vx : Resp4 q := (v * bigX.1, v * bigX.2.1, v * bigX.2.2.1,
    v * bigX.2.2.2)
  let bigD : Resp4 q := (vx.1 + bigA.1, vx.2.1 + bigA.2.1,
    vx.2.2.1 + bigA.2.2.1, vx.2.2.2 + bigA.2.2.2)
  { commitment := bigB, response := bigD }

/-- bit::verify (src/zkp/bit.rs, lines 153-215): recompute the challenge,
rebuild Y = (C, C-prime, C-prime / C), and check Y^v B = f(D) elementwise
across all three product-group coordinates. -/
def bitVerify {q : ℕ} (G : MGroup q) (proof : BitProof q)
    (ct : ElGamalCt q) (cPrime : E2 q) (y : ZMod q) : Bool :=
  let generator := G.gen
  let identity := identityElement q
  let bigG : E2 q := (generator, y)
  let bigH : E2 q := (identity, generator)
  let v := bitChallenge G proof.commitment ct cPrime
  let cInv := e2Neg (ctPair ct)
  let cPrime2 := e2Add cPrime cInv
  let bigY : Comm3 q := (ctPair ct, cPrime, cPrime2)
  let yPowV : Comm3 q := (e2Smul v bigY.1, e2Smul v bigY.2.1,
    e2Smul v bigY.2.2)
  let lhs : Comm3 q := (e2Add yPowV.1 proof.commitment.1,
    e2Add yPowV.2.1 proof.commitment.2.1,
    e2Add yPowV.2.2 proof.commitment.2.2)
  let d := proof.response
  let rhs := hom bigG bigH (ctPair ct) d.1 d.2.1 d.2.2.1 d.2.2.2
  decide (lhs = rhs)

/-! ## Shuffle proof (src/zkp/shuffle.rs)

Fixed-length vectors (Product of T and N in the source) are embedded as
functions out of Fin n.  An ElGamal ciphertext is an element pair. -/

/-- Ciphertext (src/zkp/shuffle.rs, line 17): a pair of elements. -/
abbrev Ct (q : ℕ) := ZMod q × ZMod q

/-- ciphertext_mul (src/zkp/shuffle.rs, lines 84-89). -/
def ciphertextMul {q : ℕ} (c1 c2 : Ct q) : Ct q :=
  (addElement c1.1 c2.1, addElement c1.2 c2.2)

/-- ciphertext_exp (src/zkp/shuffle.rs, lines 92-97). -/
def ciphertextExp {q : ℕ} (c : Ct q) (s : ZMod q) : Ct q :=
  (scalarMul c.1 s, scalarMul c.2 s)

/-- ciphertext_inv (src/zkp/shuffle.rs, lines 100-105). -/
def ciphertextInv {q : ℕ} (c : Ct q) : Ct q :=
  (negateElement c.1, negateElement c.2)

/-- The identity ciphertext (identity, identity). -/
def identityCiphertext (q : ℕ) : Ct q := (identityElement q, identityElement q)

/-- compute_perm_commitment (src/zkp/shuffle.rs, lines 108-114):
P = g_P^{pi(j)} * h_P^{k_j}. -/
def computePermCommitment {q : ℕ} (piJ kJ gP hP : ZMod q) : ZMod q :=
  addElement (scalarMul gP piJ) (scalarMul hP kJ)

/-- rerandomize_ciphertext (src/zkp/shuffle.rs, lines 147-153). -/
def rerandomizeCiphertext {q : ℕ} (c : Ct q) (pk rPrime g : ZMod q) : Ct q :=
  (addElement c.1 (scalarMul g rPrime), addElement c.2 (scalarMul pk rPrime))

/-- ShuffleInstance (src/zkp/shuffle.rs, lines 24-42), including the three
optional placeholder fields the verifier requires. -/
structure ShuffleInstance (q n : ℕ) where
  initialCiphertexts : Fin n → Ct q
  finalCiphertexts : Fin n → Ct q
  publicKeys : Fin n → ZMod q
  permCommitments : Fin n → ZMod q
  g : ZMod q
  h : ZMod q
  gP : ZMod q
  hP : ZMod q
  initialCiphertextsPermByPiInv : Option (Fin n → Ct q)
  permCommitmentsPermByPiInv : Option (Fin n → ZMod q)
  prodPermCommitmentsPermByPiInv : Option (ZMod q)

/-- ShuffleWitness (src/zkp/shuffle.rs, lines 49-53). -/
structure ShuffleWitness (q n : ℕ) where
  permutation : Fin n → ZMod q
  rerandomizationFactors : Fin n → ZMod q
  permCommitmentRandomness : Fin n → ZMod q

/-- ShuffleProofCommitments (src/zkp/shuffle.rs, lines 58-63). -/
structure ShuffleProofCommitments (q n : ℕ) where
  Ai : Fin n → Ct q
  Bi : Fin n → Ct q
  S : Ct q
  T : Ct q

/-- ShuffleProofResponses (src/zkp/shuffle.rs, lines 68-73). -/
structure ShuffleProofResponses (q n : ℕ) where
  kPrimeVec : Fin n → ZMod q
  rPrimeVec : Fin n → ZMod q
  sPrime : ZMod q
  tPrimeVec : Fin n → ZMod q

/-- ShuffleProof (src/zkp/shuffle.rs, lines 78-81). -/
structure ShuffleProof (q n : ℕ) where
  commitments : ShuffleProofCommitments q n
  responses : ShuffleProofResponses q n

/-- Transcript bytes of one ciphertext. -/
def serCt {q : ℕ} (G : MGroup q) (c : Ct q) : List ℕ :=
  G.serE c.1 ++ G.serE c.2

/-- Transcript bytes of a ciphertext vector: componentwise, concatenated
in index order. -/
def serCtVec {q n : ℕ} (G : MGroup q) (v : Fin n → Ct q) : List ℕ :=
  ((List.finRange n).map fun i => serCt G (v i)).flatten

/-- Transcript bytes of an element vector. -/
def serElVec {q n : ℕ} (G : MGroup q) (v : Fin n → ZMod q) : List ℕ :=
  ((List.finRange n).map fun i => G.serE (v i)).flatten

/-- The single concatenated byte buffer both shuffle::prove (lines 247-259)
and shuffle::verify (lines 310-322) feed to hash_to_scalar: the instance
fields g, h, g_P, h_P, the four instance vectors, then the proof
commitments A, B, S, T, in that order. -/
def shuffleHashInput {q n : ℕ} (G : MGroup q) (inst : ShuffleInstance q n)
    (comms : ShuffleProofCommitments q n) : List ℕ :=
  G.serE inst.g ++ G.serE inst.h ++ G.serE inst.gP ++ G.serE inst.hP
    ++ serCtVec G inst.initialCiphertexts
    ++ serCtVec G inst.finalCiphertexts
    ++ serElVec G inst.publicKeys
    ++ serElVec G inst.permCommitments
    ++ serCtVec G comms.Ai ++ serCtVec G comms.Bi
    ++ serCt G comms.S ++ serCt G comms.T

/-- The shuffle Fiat-Shamir challenge x. -/
def shuffleChallenge {q n : ℕ} (G : MGroup q) (inst : ShuffleInstance q n)
    (comms : ShuffleProofCommitments q n) : ZMod q :=
  G.hashToScalar [shuffleHashInput G inst comms]

/-- The ascending loop of shuffle::prove building pi_inv_map (lines
175-184): starting from the all-zero table, for each j it converts the
permutation scalar at j, errors when the conversion fails or the index is
out of bounds, and otherwise writes pi_inv_map[new_idx] = j.  The trait
conversion TryInto of usize is passed as the function conv. -/
def buildPiInvGo {q n : ℕ} (conv : ZMod q → Option ℕ)
    (perm : Fin n → ZMod q) : ℕ → ℕ → (Fin n → Fin n) →
    Except String (Fin n → Fin n)
  | 0, _, acc => .ok acc
  | fuel + 1, j, acc =>
    if h : j < n then
      match conv (perm ⟨j, h⟩) with
      | none => .error "Failed to convert pi scalar to usize for pi_inv"
      | some newIdx =>
        if hi : newIdx < n then
          buildPiInvGo conv perm fuel (j + 1)
            (Function.update acc ⟨newIdx, hi⟩ ⟨j, h⟩)
        else .error "Permutation index out of bounds for pi_inv"
    else .ok acc

/-- shuffle::prove (src/zkp/shuffle.rs, lines 157-289); all random scalars
(kappa_i, omega_A, rho_i, omega_B, sigma, tau_j) are passed explicitly and
the permutation-scalar-to-index conversion is the function conv. -/
def shuffleProve {q n : ℕ} [NeZero n] (G : MGroup q)
    (conv : ZMod q → Option ℕ) (inst : ShuffleInstance q n)
    (witness : ShuffleWitness q n) (kappaVec : Fin n → ZMod q)
    (omegaA : ZMod q) (rhoVec : Fin n → ZMod q) (omegaB sigma : ZMod q)
    (tauVec : Fin n → ZMod q) : Except String (ShuffleProof q n) := do
  let piInvMap ← buildPiInvGo conv witness.permutation n 0
    (fun _ => ⟨0, Nat.pos_of_ne_zero (NeZero.ne n)⟩)
  let initialCiphertextsPermutedByPiInv : Fin n → Ct q := fun i =>
    inst.initialCiphertexts (piInvMap i)
  let aiVec : Fin n → Ct q := fun i =>
    let comA : Ct q := (addElement (inst.publicKeys i)
      (scalarMul inst.g (kappaVec i)), scalarMul inst.h omegaA)
    ciphertextMul (ciphertextInv (initialCiphertextsPermutedByPiInv i)) comA
  let biVec : Fin n → Ct q := fun i =>
    let comB : Ct q := (addElement (inst.publicKeys i)
      (scalarMul inst.g (rhoVec i)),
      addElement (inst.permCommitments i) (scalarMul inst.h omegaB))
    ciphertextMul (ciphertextInv (inst.finalCiphertexts i)) comB
  let prodCJ := (List.finRange n).foldl
    (fun acc i => ciphertextMul acc (inst.initialCiphertexts i))
    (identityCiphertext q)
  let prodPkJ := (List.finRange n).foldl
    (fun acc i => addElement acc (inst.publicKeys i)) (identityElement q)
  let sumTauJ := (List.finRange n).foldl
    (fun acc i => acc + tauVec i) (0 : ZMod q)
  let comS : Ct q := (addElement prodPkJ (scalarMul inst.g sigma),
    scalarMul inst.h sumTauJ)
  let sVal := ciphertextMul (ciphertextInv prodCJ) comS
  let prodCPrimeJ := (List.finRange n).foldl
    (fun acc i => ciphertextMul acc (inst.finalCiphertexts i))
    (identityCiphertext q)
  let prodPJ := (List.finRange n).foldl
    (fun acc i => addElement acc (inst.permCommitments i))
    (identityElement q)
  let comT : Ct q := (addElement prodPkJ (scalarMul inst.g sigma),
    addElement prodPJ (scalarMul inst.h sumTauJ))
  let tVal := ciphertextMul (ciphertextInv prodCPrimeJ) comT
  let proofCommitments : ShuffleProofCommitments q n :=
    { Ai := aiVec, Bi := biVec, S := sVal, T := tVal }
  let challengeX := shuffleChallenge G inst proofCommitments
  let kPrimeVec : Fin n → ZMod q := fun i =>
    kappaVec i - challengeX * witness.rerandomizationFactors (piInvMap i)
  let rPrimeVec : Fin n → ZMod q := fun i =>
    rhoVec i - challengeX * witness.permCommitmentRandomness (piInvMap i)
  let sumRerandFactors := (List.finRange n).foldl
    (fun acc i => acc + witness.rerandomizationFactors i) (0 : ZMod q)
  let sPrimeVal := sigma - challengeX * sumRerandFactors
  let tPrimeVec : Fin n → ZMod q := fun j =>
    tauVec j - challengeX * witness.permCommitmentRandomness j
  let proofResponses : ShuffleProofResponses q n :=
    { kPrimeVec := kPrimeVec, rPrimeVec := rPrimeVec,
      sPrime := sPrimeVal, tPrimeVec := tPrimeVec }
  .ok { commitments := proofCommitments, responses := proofResponses }

/-- The first family of per-position verification equations of
shuffle::verify (lines 336-356). -/
def shuffleEq1 {q n : ℕ} (inst : ShuffleInstance q n)
    (proof : ShuffleProof q n) (cPiInv : Fin n → Ct q)
    (challengeX : ZMod q) (i : Fin n) : Prop :=
  let cPrimeIPowX := ciphertextExp (inst.finalCiphertexts i) challengeX
  let lhs1 := ciphertextMul
    (ciphertextMul (proof.commitments.Ai i) (cPiInv i)) cPrimeIPowX
  let rhs1 : Ct q :=
    (addElement (inst.publicKeys i)
      (scalarMul inst.g (proof.responses.kPrimeVec i)),
     scalarMul inst.h (proof.responses.rPrimeVec i))
  lhs1 = rhs1

/-- The second family of per-position verification equations of
shuffle::verify (lines 358-379). -/
def shuffleEq2 {q n : ℕ} (inst : ShuffleInstance q n)
    (proof : ShuffleProof q n) (pPiInv : Fin n → ZMod q)
    (challengeX : ZMod q) (i : Fin n) : Prop :=
  let pIPowX := scalarMul (inst.permCommitments i) challengeX
  let lhs2Ciph := ciphertextMul (proof.commitments.Bi i)
    (inst.finalCiphertexts i)
  let lhs2 : Ct q := (addElement lhs2Ciph.1 pIPowX, lhs2Ciph.2)
  let rhs2 : Ct q :=
    (addElement (inst.publicKeys i)
      (scalarMul inst.g (proof.responses.rPrimeVec i)),
     addElement (pPiInv i)
      (scalarMul inst.h (proof.responses.tPrimeVec i)))
  lhs2 = rhs2

/-- The first aggregate verification equation of shuffle::verify
(lines 381-399). -/
def shuffleEq3 {q n : ℕ} (inst : ShuffleInstance q n)
    (proof : ShuffleProof q n) (challengeX : ZMod q) : Prop :=
  let prodCJ := (List.finRange n).foldl
    (fun acc i => ciphertextMul acc (inst.initialCiphertexts i))
    (identityCiphertext q)
  let prodCPrimeJ := (List.finRange n).foldl
    (fun acc i => ciphertextMul acc (inst.finalCiphertexts i))
    (identityCiphertext q)
  let lhs3 := ciphertextMul (ciphertextMul proof.commitments.S prodCJ)
    (ciphertextExp prodCPrimeJ challengeX)
  let prodPkJ := (List.finRange n).foldl
    (fun acc i => addElement acc (inst.publicKeys i)) (identityElement q)
  let sumTPrimeJ := (List.finRange n).foldl
    (fun acc i => acc + proof.responses.tPrimeVec i) (0 : ZMod q)
  let rhs3 : Ct q :=
    (addElement prodPkJ (scalarMul inst.g proof.responses.sPrime),
     scalarMul inst.h sumTPrimeJ)
  lhs3 = rhs3

/-- The second aggregate verification equation of shuffle::verify
(lines 401-416). -/
def shuffleEq4 {q n : ℕ} (inst : ShuffleInstance q n)
    (proof : ShuffleProof q n) (prodPPiInv : ZMod q)
    (challengeX : ZMod q) : Prop :=
  let prodCPrimeJ := (List.finRange n).foldl
    (fun acc i => ciphertextMul acc (inst.finalCiphertexts i))
    (identityCiphertext q)
  let prodPJ := (List.finRange n).foldl
    (fun acc i => addElement acc (inst.permCommitments i))
    (identityElement q)
  let lhs4Part := ciphertextMul proof.commitments.T prodCPrimeJ
  let lhs4 : Ct q :=
    (addElement lhs4Part.1 (scalarMul prodPJ challengeX), lhs4Part.2)
  let prodPkJ := (List.finRange n).foldl
    (fun acc i => addElement acc (inst.publicKeys i)) (identityElement q)
  let sumRPrimeJ := (List.finRange n).foldl
    (fun acc i => acc + proof.responses.rPrimeVec i) (0 : ZMod q)
  let sumTPrimeJ := (List.finRange n).foldl
    (fun acc i => acc + proof.responses.tPrimeVec i) (0 : ZMod q)
  let rhs4 : Ct q :=
    (addElement prodPkJ (scalarMul inst.g sumRPrimeJ),
     addElement prodPPiInv (scalarMul inst.h sumTPrimeJ))
  lhs4 = rhs4

instance {q n : ℕ} (inst : ShuffleInstance q n) (proof : ShuffleProof q n)
    (cPiInv : Fin n → Ct q) (x : ZMod q) (i : Fin n) :
    Decidable (shuffleEq1 inst proof cPiInv x i) := by
  unfold shuffleEq1; infer_instance

instance {q n : ℕ} (inst : ShuffleInstance q n) (proof : ShuffleProof q n)
    (pPiInv : Fin n → ZMod q) (x : ZMod q) (i : Fin n) :
    Decidable (shuffleEq2 inst proof pPiInv x i) := by
  unfold shuffleEq2; infer_instance

instance {q n : ℕ} (inst : ShuffleInstance q n) (proof : ShuffleProof q n)
    (x : ZMod q) : Decidable (shuffleEq3 inst proof x) := by
  unfold shuffleEq3; infer_instance

instance {q n : ℕ} (inst : ShuffleInstance q n) (proof : ShuffleProof q n)
    (prodPPiInv : ZMod q) (x : ZMod q) :
    Decidable (shuffleEq4 inst proof prodPPiInv x) := by
  unfold shuffleEq4; infer_instance

/-- shuffle::verify (src/zkp/shuffle.rs, lines 293-419): recompute the
challenge from the same transcript, require the three placeholder fields
to be present (an error otherwise, lines 329-334), and return the
conjunction of the four families of verification equations (the source
early-returns Ok(false) at the first failing check, which yields the same
boolean). -/
def shuffleVerify {q n : ℕ} (G : MGroup q) (inst : ShuffleInstance q n)
    (proof : ShuffleProof q n) : Except String Bool :=
  let challengeX := shuffleChallenge G inst proof.commitments
  match inst.initialCiphertextsPermByPiInv with
  | none => .error
      "Missing initial_ciphertexts_perm_by_pi_inv in instance (placeholder for verify)"
  | some cPiInv =>
    match inst.permCommitmentsPermByPiInv with
    | none => .error
        "Missing perm_commitments_perm_by_pi_inv in instance (placeholder for verify)"
    | some pPiInv =>
      match inst.prodPermCommitmentsPermByPiInv with
      | none => .error
          "Missing prod_perm_commitments_perm_by_pi_inv in instance (placeholder for verify)"
      | some prodPPiInv =>
        .ok ((decide (∀ i, shuffleEq1 inst proof cPiInv challengeX i))
          && (decide (∀ i, shuffleEq2 inst proof pPiInv challengeX i))
          && (decide (shuffleEq3 inst proof challengeX))
          && (decide (shuffleEq4 inst proof prodPPiInv challengeX)))

/-- The ascending loop of apply_permutation_to_ciphertexts
(src/zkp/shuffle.rs, lines 133-142): starting from the vector of identity
ciphertexts, for each j it converts the permutation scalar at j, errors
when the conversion fails or the index is at least N, and otherwise writes
out[new_idx] = ciphertexts[j]. -/
def applyPermGo {q n : ℕ} (conv : ZMod q → Option ℕ)
    (ciphertexts : Fin n → Ct q) (perm : Fin n → ZMod q) :
    ℕ → ℕ → (Fin n → Ct q) → Except String (Fin n → Ct q)
  | 0, _, acc => .ok acc
  | fuel + 1, j, acc =>
    if h : j < n then
      match conv (perm ⟨j, h⟩) with
      | none => .error "Failed to convert permutation scalar to usize"
      | some newIdx =>
        if hi : newIdx < n then
          applyPermGo conv ciphertexts perm fuel (j + 1)
            (Function.update acc ⟨newIdx, hi⟩ (ciphertexts ⟨j, h⟩))
        else .error "Permutation index out of bounds"
    else .ok acc

/-- apply_permutation_to_ciphertexts (src/zkp/shuffle.rs, lines 118-144). -/
def applyPermutationToCiphertexts {q n : ℕ} (conv : ZMod q → Option ℕ)
    (ciphertexts : Fin n → Ct q) (perm : Fin n → ZMod q) :
    Except String (Fin n → Ct q) :=
  applyPermGo conv ciphertexts perm n 0 (fun _ => identityCiphertext q)

/-! ## A concrete model group of order 11, used for concrete evaluations

The generator is 1, elements and scalars serialize to their canonical
value byte, and the hash function is the constant 1 (any deterministic
map is a valid model of hash_to_scalar; the protocol definitions are
parameterized over it). -/

instance : Fact (Nat.Prime 11) := ⟨by norm_num⟩

/-- A concrete MGroup over ZMod 11. -/
def mg11 : MGroup 11 :=
  { gen := 1, serE := fun e => [e.val], serS := fun s => [s.val],
    hashToScalar := fun _ => 1 }

/-- Canonical scalar-to-index conversion of the model group (the TryInto
of usize bound of shuffle::prove): every scalar converts to its canonical
value. -/
def scalarToIdx {q : ℕ} (s : ZMod q) : Option ℕ := some s.val

/-! ### The honest N=3 shuffle instance of the source test
(create_dummy_instance_and_witness, src/zkp/shuffle.rs lines 446-542),
with the permutation pi = (2, 0, 1) and concrete scalars in place of the
random samples. -/

/-- The test helper elgamal_encrypt (src/zkp/shuffle.rs, lines 434-444):
(g^r, pk^r * g^m). -/
def elgamalEncryptT (g pk m r : ZMod 11) : Ct 11 :=
  (scalarMul g r, addElement (scalarMul pk r) (scalarMul g m))

/-- Secret keys of the three positions. -/
def c1sk : Fin 3 → ZMod 11 := ![3, 5, 7]

/-- Public keys pk_i = g^{sk_i}. -/
def c1pk : Fin 3 → ZMod 11 := fun i => scalarMul mg11.gen (c1sk i)

/-- Message scalars. -/
def c1msg : Fin 3 → ZMod 11 := ![1, 2, 3]

/-- Initial encryption randomness. -/
def c1r0 : Fin 3 → ZMod 11 := ![2, 4, 6]

/-- The initial ciphertexts. -/
def c1initial : Fin 3 → Ct 11 :=
  fun i => elgamalEncryptT mg11.gen (c1pk i) (c1msg i) (c1r0 i)

/-- The permutation pi = (2, 0, 1) as scalars (from_u64 of the indices). -/
def c1permScalars : Fin 3 → ZMod 11 := ![2, 0, 1]

/-- Re-randomization factors of the witness. -/
def c1rerand : Fin 3 → ZMod 11 := ![1, 2, 3]

/-- Permutation-commitment randomness of the witness. -/
def c1kRand : Fin 3 → ZMod 11 := ![5, 6, 7]

/-- Permutation commitments P_j = g_P^{pi(j)} h_P^{k_j} with g_P = 3,
h_P = 4. -/
def c1permComm : Fin 3 → ZMod 11 :=
  fun j => computePermCommitment (c1permScalars j) (c1kRand j) 3 4

/-- The inverse permutation table: pi_inv_map[pi(j)] = j. -/
def c1piInv : Fin 3 → Fin 3 := ![1, 2, 0]

/-- The final ciphertexts: position i holds the re-randomization of the
initial ciphertext at pi_inv(i), under pk_i and factor r_prime_i, exactly
as built by the source test (lines 498-508). -/
def c1final : Fin 3 → Ct 11 :=
  fun i => rerandomizeCiphertext (c1initial (c1piInv i)) (c1pk i)
    (c1rerand i) mg11.gen

/-- The honest shuffle instance of the source test, with g = 1, h = 2,
g_P = 3, h_P = 4 and the three placeholder fields filled exactly as in
the test (lines 510-533). -/
def c1inst : ShuffleInstance 11 3 :=
  { initialCiphertexts := c1initial, finalCiphertexts := c1final,
    publicKeys := c1pk, permCommitments := c1permComm,
    g := mg11.gen, h := 2, gP := 3, hP := 4,
    initialCiphertextsPermByPiInv := some (fun i => c1initial (c1piInv i)),
    permCommitmentsPermByPiInv := some (fun i => c1permComm (c1piInv i)),
    prodPermCommitmentsPermByPiInv := some ((List.finRange 3).foldl
      (fun acc i => addElement acc (c1permComm (c1piInv i)))
      (identityElement 11)) }

/-- The honest shuffle witness of the source test. -/
def c1wit : ShuffleWitness 11 3 :=
  { permutation := c1permScalars, rerandomizationFactors := c1rerand,
    permCommitmentRandomness := c1kRand }

/-- The result of shuffle::prove on the honest instance and witness, with
concrete values for the random scalars. -/
def c1proveResult : Except String (ShuffleProof 11 3) :=
  shuffleProve mg11 scalarToIdx c1inst c1wit ![1, 2, 3] 4 ![5, 6, 7] 8 9
    ![10, 1, 2]

/-- The verdict of shuffle::verify on the proof produced by shuffle::prove
for the honest instance. -/
def c1verifyResult : Except String Bool :=
  c1proveResult.bind (shuffleVerify mg11 c1inst)

/-- A two-position ciphertext vector for exercising
apply_permutation_to_ciphertexts. -/
def c10cts : Fin 2 → Ct 11 := ![(1, 2), (3, 4)]

/-- A non-injective, all-in-range index vector as scalars: both positions
map to target position 0. -/
def c10perm : Fin 2 → ZMod 11 := ![0, 0]

/-- The same non-injective index vector as indices. -/
def c10ixf : Fin 2 → Fin 2 := ![0, 0]

/-- The ElGamal ciphertext of bit b built by the source bit-proof test
(src/zkp/bit.rs, lines 241-247): (g^r, pk^r * g^b) under public key y. -/
def bitTestCiphertext {q : ℕ} (G : MGroup q) (b r y : ZMod q) :
    ElGamalCt q :=
  { gr := scalarMul G.gen r,
    mhr := addElement (scalarMul y r) (scalarMul G.gen b) }

/-- The re-encryption C-prime = C^b G^s built by the source bit-proof test
(src/zkp/bit.rs, lines 249-255), with G = (g, y). -/
def bitTestCPrime {q : ℕ} (G : MGroup q) (b s y : ZMod q)
    (ct : ElGamalCt q) : E2 q :=
  e2Add (e2Smul b (ctPair ct)) (e2Smul s (G.gen, y))

/-- A well-typed one-position shuffle instance whose three placeholder
fields are all None. -/
def noPlaceholderInst : ShuffleInstance 11 1 :=
  { initialCiphertexts := fun _ => identityCiphertext 11,
    finalCiphertexts := fun _ => identityCiphertext 11,
    publicKeys := fun _ => 0, permCommitments := fun _ => 0,
    g := 1, h := 2, gP := 3, hP := 4,
    initialCiphertextsPermByPiInv := none,
    permCommitmentsPermByPiInv := none,
    prodPermCommitmentsPermByPiInv := none }

/-- A well-typed one-position shuffle proof with identity commitments and
zero responses. -/
def zeroShuffleProof : ShuffleProof 11 1 :=
  let comms : ShuffleProofCommitments 11 1 :=
    { Ai := fun _ => identityCiphertext 11,
      Bi := fun _ => identityCiphertext 11, S := identityCiphertext 11,
      T := identityCiphertext 11 }
  let resps : ShuffleProofResponses 11 1 :=
    { kPrimeVec := fun _ => 0, rPrimeVec := fun _ => 0,
      sPrime := 0, tPrimeVec := fun _ => 0 }
  { commitments := comms, responses := resps }

/-- The one-position shuffle instance equal to noPlaceholderInst but with
the three placeholder fields present (all values trivial), against which
zeroShuffleProof verifies. -/
def trivialVerifyingInst : ShuffleInstance 11 1 :=
  { initialCiphertexts := fun _ => identityCiphertext 11,
    finalCiphertexts := fun _ => identityCiphertext 11,
    publicKeys := fun _ => 0, permCommitments := fun _ => 0,
    g := 1, h := 2, gP := 3, hP := 4,
    initialCiphertextsPermByPiInv := some (fun _ => identityCiphertext 11),
    permCommitmentsPermByPiInv := some (fun _ => 0),
    prodPermCommitmentsPermByPiInv := some 0 }

end Exact

namespace Exact

/-! ## Theorems -/

/-- C2: ElGamal round-trip: decrypt(encrypt(m, k), k) = m for every key pair
produced by KeyPair::new and every choice of the random nonce r. -/
theorem elgamal_roundtrip (q : ℕ) (G : MGroup q) (secret m r : ZMod q) :
    decrypt (encrypt G m (KeyPair.create G secret) r)
      (KeyPair.create G secret) = m := by
  simp only [decrypt, encrypt, KeyPair.create, scalarMul, addElement,
    negateElement]
  ring

/-- C1: evaluation of the code at the failing input: on the honest N=3
shuffle instance and witness of the source test (permutation (2,0,1),
output ciphertexts the re-randomized permuted inputs, permutation
commitments from the same permutation and randomness), shuffle::prove
succeeds but shuffle::verify returns Ok(false), contradicting the claim
and the source test test_shuffle_prove_verify_valid. -/
theorem shuffle_honest_proof_rejected : c1verifyResult = .ok false := by
  rfl

/-- C3: evaluation of the code at the failing input: CPProof.write_bytes
returns the all-zero buffer, so deserializing the bytes produced by
serializing the proof (t1, t2, s) = (1, 1, 1) yields the zero proof, not a
value equal to the input. -/
theorem cpproof_roundtrip_broken :
    cpReadB 11 (cpWriteB (⟨1, 1, 1⟩ : CPProof 11))
        = some (⟨0, 0, 0⟩ : CPProof 11)
      ∧ (⟨0, 0, 0⟩ : CPProof 11) ≠ (⟨1, 1, 1⟩ : CPProof 11) := by
  exact ⟨rfl, by decide⟩

/-- C4 counterexample: shuffle::verify reports an error, not a boolean
verdict, on a well-typed instance and proof when the placeholder field
initial_ciphertexts_perm_by_pi_inv is None. -/
theorem shuffle_verify_errors_on_missing_placeholder :
    shuffleVerify mg11 noPlaceholderInst zeroShuffleProof
      = .error
        "Missing initial_ciphertexts_perm_by_pi_inv in instance (placeholder for verify)" := by
  rfl

/-- C4 amended: Schnorr, Chaum-Pedersen and bit verification are total
boolean functions, and shuffle::verify returns a boolean verdict exactly
when the three placeholder pi-inverse fields of the instance are present;
when any of them is None it reports an error instead. -/
theorem shuffle_verify_ok_iff_placeholders (q n : ℕ) (G : MGroup q)
    (inst : ShuffleInstance q n) (proof : ShuffleProof q n) :
    (∃ b, shuffleVerify G inst proof = .ok b) ↔
      (inst.initialCiphertextsPermByPiInv.isSome
        ∧ inst.permCommitmentsPermByPiInv.isSome
        ∧ inst.prodPermCommitmentsPermByPiInv.isSome) := by
  cases h1 : inst.initialCiphertextsPermByPiInv <;>
    cases h2 : inst.permCommitmentsPermByPiInv <;>
      cases h3 : inst.prodPermCommitmentsPermByPiInv <;>
        simp [shuffleVerify, h1, h2, h3]

/-- C5: Schnorr completeness: for y = g^x, verify(y, prove(x, y)) = true for
every choice of the random commitment scalar v and every hash function. -/
theorem schnorr_complete (q : ℕ) (G : MGroup q) (x v : ZMod q) :
    schnorrVerify G (scalarMul G.gen x)
      (schnorrProve G x (scalarMul G.gen x) v) = true := by
  simp only [schnorrVerify, schnorrProve, scalarMul, addElement,
    decide_eq_true_eq]
  ring

/-- C6: Chaum-Pedersen conjunction: verification succeeds exactly when
both equations hold for the single recomputed challenge; a proof with
witness x verifies when y1 = g1^x and y2 = g2^x; and when y2 = g2^{x2}
for x2 different from x it fails verification (whenever the recomputed
challenge is nonzero and g2 is not the identity). -/
theorem chaum_pedersen_cross_base (q : ℕ) [Fact (Nat.Prime q)]
    (G : MGroup q) :
    (∀ g1 g2 y1 y2 t1 t2 s : ZMod q,
        cpVerify G g1 g2 y1 y2 ⟨t1, t2, s⟩ = true ↔
          (scalarMul g1 s
              = addElement t1 (scalarMul y1 (cpChallenge G g1 g2 y1 y2 t1 t2))
            ∧ scalarMul g2 s
              = addElement t2
                  (scalarMul y2 (cpChallenge G g1 g2 y1 y2 t1 t2))))
    ∧ (∀ x g1 g2 v : ZMod q,
        cpVerify G g1 g2 (scalarMul g1 x) (scalarMul g2 x)
          (cpProve G x g1 g2 (scalarMul g1 x) (scalarMul g2 x) v) = true)
    ∧ (∀ x x2 g1 g2 v : ZMod q, x2 ≠ x → g2 ≠ 0 →
        cpChallenge G g1 g2 (scalarMul g1 x) (scalarMul g2 x2)
          (scalarMul g1 v) (scalarMul g2 v) ≠ 0 →
        cpVerify G g1 g2 (scalarMul g1 x) (scalarMul g2 x2)
          (cpProve G x g1 g2 (scalarMul g1 x) (scalarMul g2 x2) v)
          = false) := by
  refine ⟨?_, ?_, ?_⟩
  · intro g1 g2 y1 y2 t1 t2 s
    simp [cpVerify, Bool.and_eq_true, decide_eq_true_eq]
  · intro x g1 g2 v
    simp only [cpVerify, cpProve, scalarMul, addElement, Bool.and_eq_true,
      decide_eq_true_eq]
    constructor <;> ring
  · intro x x2 g1 g2 v hx2 hg2 hc
    simp only [cpVerify, cpProve, scalarMul, addElement] at hc ⊢
    have h2 : decide ((v + cpChallenge G g1 g2 (x * g1) (x2 * g2) (v * g1)
        (v * g2) * x) * g2
          = v * g2 + cpChallenge G g1 g2 (x * g1) (x2 * g2) (v * g1)
            (v * g2) * (x2 * g2)) = false := by
      apply decide_eq_false
      intro h
      have hz : cpChallenge G g1 g2 (x * g1) (x2 * g2) (v * g1) (v * g2)
          * (x - x2) * g2 = 0 := by linear_combination h
      exact mul_ne_zero (mul_ne_zero hc (sub_ne_zero.mpr (Ne.symm hx2)))
        hg2 hz
    rw [h2, Bool.and_false]

/-- C6 witness: the theorem applied at q = 11, the concrete model group,
x = 3, x2 = 5, g1 = g2 = 1, v = 2, where all hypotheses hold by
computation. -/
theorem chaum_pedersen_cross_base_witness :
    cpVerify mg11 1 1 (scalarMul 1 (3 : ZMod 11)) (scalarMul 1 3)
        (cpProve mg11 3 1 1 (scalarMul 1 3) (scalarMul 1 3) 2) = true
      ∧ cpVerify mg11 1 1 (scalarMul 1 (3 : ZMod 11)) (scalarMul 1 5)
        (cpProve mg11 3 1 1 (scalarMul 1 3) (scalarMul 1 5) 2) = false := by
  have h1 : (5 : ZMod 11) ≠ 3 := by decide
  have h2 : (1 : ZMod 11) ≠ 0 := by decide
  have h3 : cpChallenge mg11 1 1 (scalarMul 1 3) (scalarMul 1 5)
      (scalarMul 1 2) (scalarMul 1 2) ≠ 0 := by decide
  exact ⟨(chaum_pedersen_cross_base 11 mg11).2.1 3 1 1 2,
    (chaum_pedersen_cross_base 11 mg11).2.2 3 5 1 1 2 h1 h2 h3⟩

/-- C7: bit-proof correctness: for b in {0, 1}, the proof built by
bit::prove over the test construction of the ciphertext of b and its
matching re-encryption C-prime of b squared passes bit::verify, for every
choice of the commitment randomness and of the hash function; and for any
b with (b^2 - b) nonzero after multiplication by the challenge and the
generator (in particular b = 2 in the concrete witness), verification
fails. -/
theorem bit_proof_correctness (q : ℕ) (G : MGroup q) :
    (∀ b y rE sE r s t : ZMod q, (b = 0 ∨ b = 1) →
        bitVerify G
          (bitProve G b rE sE (bitTestCiphertext G b rE y)
            (bitTestCPrime G b sE y (bitTestCiphertext G b rE y)) y r s t)
          (bitTestCiphertext G b rE y)
          (bitTestCPrime G b sE y (bitTestCiphertext G b rE y)) y = true)
    ∧ (∀ b y rE sE r s t : ZMod q,
        bitChallenge G
            (bitProve G b rE sE (bitTestCiphertext G b rE y)
              (bitTestCPrime G b sE y (bitTestCiphertext G b rE y))
              y r s t).commitment
            (bitTestCiphertext G b rE y)
            (bitTestCPrime G b sE y (bitTestCiphertext G b rE y))
          * (b * b - b) * G.gen ≠ 0 →
        bitVerify G
          (bitProve G b rE sE (bitTestCiphertext G b rE y)
            (bitTestCPrime G b sE y (bitTestCiphertext G b rE y)) y r s t)
          (bitTestCiphertext G b rE y)
          (bitTestCPrime G b sE y (bitTestCiphertext G b rE y)) y
          = false) := by
  constructor
  · intro b y rE sE r s t hb
    simp only [bitVerify, bitProve, bitTestCiphertext, bitTestCPrime, hom,
      e2Add, e2Smul, e2Neg, ctPair, scalarMul, addElement, identityElement,
      decide_eq_true_eq, Prod.mk.injEq]
    rcases hb with hb | hb <;> subst hb <;>
      refine ⟨⟨?_, ?_⟩, ⟨?_, ?_⟩, ?_, ?_⟩ <;> ring
  · intro b y rE sE r s t hv
    simp only [bitVerify, bitProve, bitTestCiphertext, bitTestCPrime, hom,
      e2Add, e2Smul, e2Neg, ctPair, scalarMul, addElement,
      identityElement] at hv ⊢
    apply decide_eq_false
    intro h
    simp only [Prod.mk.injEq] at h
    obtain ⟨-, -, -, h6⟩ := h
    exact hv (by linear_combination h6)

/-- C7 witness: the theorem applied at q = 11, the concrete model group,
y = 5, encryption randomness 2, re-encryption randomness 3, commitment
randomness (4, 6, 7), for the bit b = 1 (accepted) and for b = 2
(rejected). -/
theorem bit_proof_correctness_witness :
    bitVerify mg11
        (bitProve mg11 1 2 3 (bitTestCiphertext mg11 1 2 5)
          (bitTestCPrime mg11 1 3 5 (bitTestCiphertext mg11 1 2 5)) 5 4 6 7)
        (bitTestCiphertext mg11 1 2 5)
        (bitTestCPrime mg11 1 3 5 (bitTestCiphertext mg11 1 2 5)) 5 = true
      ∧ bitVerify mg11
        (bitProve mg11 2 2 3 (bitTestCiphertext mg11 2 2 5)
          (bitTestCPrime mg11 2 3 5 (bitTestCiphertext mg11 2 2 5)) 5 4 6 7)
        (bitTestCiphertext mg11 2 2 5)
        (bitTestCPrime mg11 2 3 5 (bitTestCiphertext mg11 2 2 5)) 5
        = false :=
  ⟨(bit_proof_correctness 11 mg11).1 1 5 2 3 4 6 7 (Or.inr rfl),
   (bit_proof_correctness 11 mg11).2 2 5 2 3 4 6 7 (by decide)⟩

/-- A permutation entry is bad for the prover loop when its scalar fails
to convert or converts to an index outside the range below n. -/
theorem buildPiInvGo_error {q n : ℕ} (conv : ZMod q → Option ℕ)
    (perm : Fin n → ZMod q) :
    ∀ (fuel j : ℕ) (acc : Fin n → Fin n), n ≤ j + fuel →
      (∃ j2 : Fin n, j ≤ j2.val ∧ (conv (perm j2) = none
        ∨ ∃ k, conv (perm j2) = some k ∧ n ≤ k)) →
      ∃ msg, buildPiInvGo conv perm fuel j acc = .error msg := by
  intro fuel
  induction fuel with
  | zero =>
    intro j acc hnj ⟨j2, hj2, _⟩
    exact absurd (lt_of_le_of_lt hj2 j2.isLt) (not_lt.mpr (by omega))
  | succ m ih =>
    intro j acc hnj ⟨j2, hj2, hbad⟩
    have hjn : j < n := lt_of_le_of_lt hj2 j2.isLt
    cases hc : conv (perm ⟨j, hjn⟩) with
    | none => exact ⟨_, by rw [buildPiInvGo, dif_pos hjn, hc]⟩
    | some k =>
      by_cases hk : k < n
      · simp only [buildPiInvGo, dif_pos hjn, hc, dif_pos hk]
        refine ih (j + 1) _ (by omega) ⟨j2, ?_, hbad⟩
        rcases Nat.lt_or_ge j j2.val with hlt | hge
        · omega
        · exfalso
          have hvj : j2.val = j := le_antisymm hge hj2
          have hjeq : j2 = ⟨j, hjn⟩ := Fin.ext (by simp [hvj])
          rw [hjeq, hc] at hbad
          rcases hbad with h | ⟨k2, hk2, hnk2⟩
          · exact Option.noConfusion h
          · exact absurd hnk2 (not_le.mpr (Option.some.inj hk2 ▸ hk))
      · refine ⟨"Permutation index out of bounds for pi_inv", ?_⟩
        simp only [buildPiInvGo, dif_pos hjn, hc, dif_neg hk]

/-- C8: shuffle witness-encoding failures abort proof construction: when
some permutation entry fails to convert to an index strictly below n,
shuffle::prove returns an error and produces no proof, for every instance,
witness randomness and conversion function. -/
theorem shuffle_prove_aborts_on_bad_entry (q n : ℕ) [NeZero n]
    (G : MGroup q) (conv : ZMod q → Option ℕ) (inst : ShuffleInstance q n)
    (wit : ShuffleWitness q n) (kappaVec : Fin n → ZMod q) (omegaA : ZMod q)
    (rhoVec : Fin n → ZMod q) (omegaB sigma : ZMod q)
    (tauVec : Fin n → ZMod q)
    (hbad : ∃ j : Fin n, conv (wit.permutation j) = none
      ∨ ∃ k, conv (wit.permutation j) = some k ∧ n ≤ k) :
    ∃ msg, shuffleProve G conv inst wit kappaVec omegaA rhoVec omegaB sigma
      tauVec = .error msg := by
  obtain ⟨j, hj⟩ := hbad
  obtain ⟨msg, hmsg⟩ := buildPiInvGo_error conv wit.permutation n 0
    (fun _ => ⟨0, Nat.pos_of_ne_zero (NeZero.ne n)⟩) (by omega)
    ⟨j, Nat.zero_le _, hj⟩
  refine ⟨msg, ?_⟩
  unfold shuffleProve
  rw [hmsg]
  rfl

/-- C8 witness: the theorem applied to the honest N=3 test instance with
the permutation entry at position 0 replaced by the scalar 5, which
converts to the out-of-range index 5. -/
theorem shuffle_prove_aborts_on_bad_entry_witness :
    ∃ msg, shuffleProve mg11 scalarToIdx c1inst
      { permutation := ![5, 0, 1], rerandomizationFactors := c1rerand,
        permCommitmentRandomness := c1kRand }
      ![1, 2, 3] 4 ![5, 6, 7] 8 9 ![10, 1, 2] = .error msg :=
  shuffle_prove_aborts_on_bad_entry 11 3 mg11 scalarToIdx c1inst
    { permutation := ![5, 0, 1], rerandomizationFactors := c1rerand,
      permCommitmentRandomness := c1kRand }
    ![1, 2, 3] 4 ![5, 6, 7] 8 9 ![10, 1, 2]
    ⟨0, Or.inr ⟨5, rfl, by omega⟩⟩

/-- The apply-permutation loop succeeds exactly when every entry from the
current index on converts to an index strictly below n. -/
theorem applyPermGo_ok_iff {q n : ℕ} (conv : ZMod q → Option ℕ)
    (cts : Fin n → Ct q) (perm : Fin n → ZMod q) :
    ∀ (fuel j : ℕ) (acc : Fin n → Ct q), n ≤ j + fuel →
      ((∃ o, applyPermGo conv cts perm fuel j acc = .ok o) ↔
        ∀ j2 : Fin n, j ≤ j2.val → ∃ k, conv (perm j2) = some k ∧ k < n) := by
  intro fuel
  induction fuel with
  | zero =>
    intro j acc hnj
    refine ⟨fun _ j2 hj2 => absurd (lt_of_le_of_lt hj2 j2.isLt)
      (by omega), fun _ => ⟨acc, rfl⟩⟩
  | succ m ih =>
    intro j acc hnj
    by_cases hjn : j < n
    · cases hc : conv (perm ⟨j, hjn⟩) with
      | none =>
        simp only [applyPermGo, dif_pos hjn, hc]
        constructor
        · intro ⟨o, ho⟩
          exact Except.noConfusion ho
        · intro hall
          obtain ⟨k, hk, -⟩ := hall ⟨j, hjn⟩ (le_refl j)
          rw [hc] at hk
          exact Option.noConfusion hk
      | some k =>
        by_cases hk : k < n
        · simp only [applyPermGo, dif_pos hjn, hc, dif_pos hk]
          rw [ih (j + 1) _ (by omega)]
          constructor
          · intro hall j2 hj2
            rcases Nat.lt_or_ge j j2.val with hlt | hge
            · exact hall j2 hlt
            · have hjeq : j2 = ⟨j, hjn⟩ :=
                Fin.ext (by simp [le_antisymm hge hj2])
              exact ⟨k, by rw [hjeq, hc], hk⟩
          · intro hall j2 hj2
            exact hall j2 (by omega)
        · simp only [applyPermGo, dif_pos hjn, hc, dif_neg hk]
          constructor
          · intro ⟨o, ho⟩
            exact Except.noConfusion ho
          · intro hall
            obtain ⟨k2, hk2, hlt2⟩ := hall ⟨j, hjn⟩ (le_refl j)
            rw [hc] at hk2
            exact absurd hlt2 (Option.some.inj hk2 ▸ hk)
    · simp only [applyPermGo, dif_neg hjn]
      refine ⟨fun _ j2 hj2 => absurd (lt_of_le_of_lt hj2 j2.isLt)
        (by omega), fun _ => ⟨acc, rfl⟩⟩

/-- A target position no remaining loop iteration writes to keeps the value
the accumulator already holds. -/
theorem applyPermGo_unassigned {q n : ℕ} (conv : ZMod q → Option ℕ)
    (cts : Fin n → Ct q) (perm : Fin n → ZMod q) (ixf : Fin n → Fin n)
    (hconv : ∀ j2 : Fin n, conv (perm j2) = some (ixf j2).val) :
    ∀ (fuel j : ℕ) (acc : Fin n → Ct q) (o : Fin n → Ct q) (p : Fin n),
      applyPermGo conv cts perm fuel j acc = .ok o →
      (∀ j2 : Fin n, j ≤ j2.val → ixf j2 ≠ p) → o p = acc p := by
  intro fuel
  induction fuel with
  | zero =>
    intro j acc o p ho _
    simp only [applyPermGo, Except.ok.injEq] at ho
    rw [← ho]
  | succ m ih =>
    intro j acc o p ho hne
    by_cases hjn : j < n
    · simp only [applyPermGo, dif_pos hjn, hconv ⟨j, hjn⟩,
        dif_pos (ixf ⟨j, hjn⟩).isLt, Fin.eta] at ho
      have hrec := ih (j + 1) _ o p ho (fun j2 hj2 => hne j2 (by omega))
      rw [hrec, Function.update_noteq
        (Ne.symm (hne ⟨j, hjn⟩ (le_refl j)))]
    · simp only [applyPermGo, dif_neg hjn, Except.ok.injEq] at ho
      rw [← ho]

/-- The output at a target position equals the input at the last loop index
mapping to it: if no later index maps to the same target as jstar, the
output at the target of jstar is the ciphertext at jstar. -/
theorem applyPermGo_last {q n : ℕ} (conv : ZMod q → Option ℕ)
    (cts : Fin n → Ct q) (perm : Fin n → ZMod q) (ixf : Fin n → Fin n)
    (hconv : ∀ j2 : Fin n, conv (perm j2) = some (ixf j2).val) :
    ∀ (fuel j : ℕ) (acc : Fin n → Ct q) (o : Fin n → Ct q)
      (jstar : Fin n), n ≤ j + fuel → j ≤ jstar.val →
      (∀ j2 : Fin n, jstar < j2 → ixf j2 ≠ ixf jstar) →
      applyPermGo conv cts perm fuel j acc = .ok o →
      o (ixf jstar) = cts jstar := by
  intro fuel
  induction fuel with
  | zero =>
    intro j acc o jstar hnj hj
    exact absurd (lt_of_le_of_lt hj jstar.isLt) (by omega)
  | succ m ih =>
    intro j acc o jstar hnj hj hlater ho
    have hjn : j < n := lt_of_le_of_lt hj jstar.isLt
    simp only [applyPermGo, dif_pos hjn, hconv ⟨j, hjn⟩,
      dif_pos (ixf ⟨j, hjn⟩).isLt, Fin.eta] at ho
    rcases Nat.lt_or_ge j jstar.val with hlt | hge
    · exact ih (j + 1) _ o jstar (by omega) hlt hlater ho
    · have hjeq : jstar = ⟨j, hjn⟩ := Fin.ext (by simp [le_antisymm hge hj])
      have hvj : jstar.val = j := by rw [hjeq]
      have hstay := applyPermGo_unassigned conv cts perm ixf hconv m
        (j + 1) _ o (ixf jstar) ho
        (fun j2 hj2 => hlater j2 (Fin.lt_def.mpr (by omega)))
      rw [hstay, hjeq, Function.update_same]

/-- Evaluation of shuffle::verify when the three placeholder fields are
present: the verdict is the conjunction of the four equation families at
the recomputed challenge. -/
theorem shuffleVerify_eval {q n : ℕ} (G : MGroup q)
    (inst : ShuffleInstance q n) (pf : ShuffleProof q n)
    (cPiInv : Fin n → Ct q) (pPiInv : Fin n → ZMod q)
    (prodPPiInv : ZMod q) (x : ZMod q)
    (h1 : inst.initialCiphertextsPermByPiInv = some cPiInv)
    (h2 : inst.permCommitmentsPermByPiInv = some pPiInv)
    (h3 : inst.prodPermCommitmentsPermByPiInv = some prodPPiInv)
    (hx : shuffleChallenge G inst pf.commitments = x) :
    shuffleVerify G inst pf = .ok
      ((decide (∀ i, shuffleEq1 inst pf cPiInv x i)
        && decide (∀ i, shuffleEq2 inst pf pPiInv x i)
        && decide (shuffleEq3 inst pf x)
        && decide (shuffleEq4 inst pf prodPPiInv x))) := by
  subst hx
  unfold shuffleVerify
  rw [h1, h2, h3]

/-- C9: shuffle tamper-detection: for every instance against which a proof
verifies, and whose generators g and h are not the identity, changing any
single response scalar (any entry of k_prime_vec, r_prime_vec or
t_prime_vec, or s_prime) to a different value makes verification return
Ok(false). -/
theorem shuffle_tamper_detection (q n : ℕ) [Fact (Nat.Prime q)]
    (G : MGroup q) (inst : ShuffleInstance q n) (pf : ShuffleProof q n)
    (hg : inst.g ≠ 0) (hh : inst.h ≠ 0)
    (hok : shuffleVerify G inst pf = .ok true) :
    (∀ (i : Fin n) (v : ZMod q), v ≠ pf.responses.kPrimeVec i →
        shuffleVerify G inst
          ⟨pf.commitments,
            ⟨Function.update pf.responses.kPrimeVec i v,
              pf.responses.rPrimeVec, pf.responses.sPrime,
              pf.responses.tPrimeVec⟩⟩ = .ok false)
    ∧ (∀ (i : Fin n) (v : ZMod q), v ≠ pf.responses.rPrimeVec i →
        shuffleVerify G inst
          ⟨pf.commitments,
            ⟨pf.responses.kPrimeVec,
              Function.update pf.responses.rPrimeVec i v,
              pf.responses.sPrime, pf.responses.tPrimeVec⟩⟩ = .ok false)
    ∧ (∀ (i : Fin n) (v : ZMod q), v ≠ pf.responses.tPrimeVec i →
        shuffleVerify G inst
          ⟨pf.commitments,
            ⟨pf.responses.kPrimeVec, pf.responses.rPrimeVec,
              pf.responses.sPrime,
              Function.update pf.responses.tPrimeVec i v⟩⟩ = .ok false)
    ∧ (∀ v : ZMod q, v ≠ pf.responses.sPrime →
        shuffleVerify G inst
          ⟨pf.commitments,
            ⟨pf.responses.kPrimeVec, pf.responses.rPrimeVec, v,
              pf.responses.tPrimeVec⟩⟩ = .ok false) := by
  cases h1 : inst.initialCiphertextsPermByPiInv with
  | none => simp [shuffleVerify, h1] at hok
  | some cPiInv =>
  cases h2 : inst.permCommitmentsPermByPiInv with
  | none => simp [shuffleVerify, h1, h2] at hok
  | some pPiInv =>
  cases h3 : inst.prodPermCommitmentsPermByPiInv with
  | none => simp [shuffleVerify, h1, h2, h3] at hok
  | some prodPPiInv =>
  rw [shuffleVerify_eval G inst pf cPiInv pPiInv prodPPiInv
    (shuffleChallenge G inst pf.commitments) h1 h2 h3 rfl] at hok
  simp only [Except.ok.injEq, Bool.and_eq_true, decide_eq_true_eq] at hok
  obtain ⟨⟨⟨e1, e2⟩, e3⟩, e4⟩ := hok
  refine ⟨?_, ?_, ?_, ?_⟩
  · intro i v hv
    rw [shuffleVerify_eval G inst
      (⟨pf.commitments,
        ⟨Function.update pf.responses.kPrimeVec i v,
          pf.responses.rPrimeVec, pf.responses.sPrime,
          pf.responses.tPrimeVec⟩⟩) cPiInv pPiInv prodPPiInv
      (shuffleChallenge G inst pf.commitments) h1 h2 h3 rfl]
    have hd1 : decide (∀ i2, shuffleEq1 inst
        (⟨pf.commitments,
          ⟨Function.update pf.responses.kPrimeVec i v,
            pf.responses.rPrimeVec, pf.responses.sPrime,
            pf.responses.tPrimeVec⟩⟩ : ShuffleProof q n) cPiInv
        (shuffleChallenge G inst pf.commitments) i2) = false := by
      apply decide_eq_false
      intro hall
      have ha := hall i
      have hb := e1 i
      simp only [shuffleEq1] at ha hb
      have hc2 := hb.symm.trans ha
      rw [Prod.mk.injEq] at hc2
      obtain ⟨hfst, -⟩ := hc2
      simp only [addElement, scalarMul, Function.update_same] at hfst
      exact hv (mul_right_cancel₀ hg (add_left_cancel hfst)).symm
    rw [hd1]
    simp only [Bool.false_and]
  · intro i v hv
    rw [shuffleVerify_eval G inst
      (⟨pf.commitments,
        ⟨pf.responses.kPrimeVec,
          Function.update pf.responses.rPrimeVec i v,
          pf.responses.sPrime, pf.responses.tPrimeVec⟩⟩) cPiInv pPiInv prodPPiInv
      (shuffleChallenge G inst pf.commitments) h1 h2 h3 rfl]
    have hd1 : decide (∀ i2, shuffleEq1 inst
        (⟨pf.commitments,
          ⟨pf.responses.kPrimeVec,
            Function.update pf.responses.rPrimeVec i v,
            pf.responses.sPrime, pf.responses.tPrimeVec⟩⟩ :
          ShuffleProof q n) cPiInv
        (shuffleChallenge G inst pf.commitments) i2) = false := by
      apply decide_eq_false
      intro hall
      have ha := hall i
      have hb := e1 i
      simp only [shuffleEq1] at ha hb
      have hc2 := hb.symm.trans ha
      rw [Prod.mk.injEq] at hc2
      obtain ⟨-, hsnd⟩ := hc2
      simp only [scalarMul, Function.update_same] at hsnd
      exact hv (mul_right_cancel₀ hh hsnd).symm
    rw [hd1]
    simp only [Bool.false_and]
  · intro i v hv
    rw [shuffleVerify_eval G inst
      (⟨pf.commitments,
        ⟨pf.responses.kPrimeVec, pf.responses.rPrimeVec,
          pf.responses.sPrime,
          Function.update pf.responses.tPrimeVec i v⟩⟩) cPiInv pPiInv prodPPiInv
      (shuffleChallenge G inst pf.commitments) h1 h2 h3 rfl]
    have hd2 : decide (∀ i2, shuffleEq2 inst
        (⟨pf.commitments,
          ⟨pf.responses.kPrimeVec, pf.responses.rPrimeVec,
            pf.responses.sPrime,
            Function.update pf.responses.tPrimeVec i v⟩⟩ :
          ShuffleProof q n) pPiInv
        (shuffleChallenge G inst pf.commitments) i2) = false := by
      apply decide_eq_false
      intro hall
      have ha := hall i
      have hb := e2 i
      simp only [shuffleEq2] at ha hb
      have hc2 := hb.symm.trans ha
      rw [Prod.mk.injEq] at hc2
      obtain ⟨-, hsnd⟩ := hc2
      simp only [addElement, scalarMul, Function.update_same] at hsnd
      exact hv (mul_right_cancel₀ hh (add_left_cancel hsnd)).symm
    rw [hd2]
    simp only [Bool.and_false, Bool.false_and]
  · intro v hv
    rw [shuffleVerify_eval G inst
      (⟨pf.commitments,
        ⟨pf.responses.kPrimeVec, pf.responses.rPrimeVec, v,
          pf.responses.tPrimeVec⟩⟩) cPiInv pPiInv prodPPiInv
      (shuffleChallenge G inst pf.commitments) h1 h2 h3 rfl]
    have hd3 : decide (shuffleEq3 inst
        (⟨pf.commitments,
          ⟨pf.responses.kPrimeVec, pf.responses.rPrimeVec, v,
            pf.responses.tPrimeVec⟩⟩ : ShuffleProof q n)
        (shuffleChallenge G inst pf.commitments)) = false := by
      apply decide_eq_false
      intro hall
      simp only [shuffleEq3] at hall e3
      have hc2 := e3.symm.trans hall
      rw [Prod.mk.injEq] at hc2
      obtain ⟨hfst, -⟩ := hc2
      simp only [addElement, scalarMul] at hfst
      exact hv (mul_right_cancel₀ hg (add_left_cancel hfst)).symm
    rw [hd3]
    simp only [Bool.and_false, Bool.false_and]

/-- C9 witness: over ZMod 11 the all-trivial one-position instance (with
g = 1, h = 2 and placeholder fields present) accepts the zero proof, and
the theorem applied there shows that changing the response scalar s_prime
to 1 makes verification return Ok(false). -/
theorem shuffle_tamper_detection_witness :
    shuffleVerify mg11 trivialVerifyingInst zeroShuffleProof = .ok true
    ∧ shuffleVerify mg11 trivialVerifyingInst
        ⟨zeroShuffleProof.commitments,
          ⟨zeroShuffleProof.responses.kPrimeVec,
            zeroShuffleProof.responses.rPrimeVec, 1,
            zeroShuffleProof.responses.tPrimeVec⟩⟩ = .ok false := by
  have hok : shuffleVerify mg11 trivialVerifyingInst zeroShuffleProof
      = .ok true := by rfl
  refine ⟨hok, ?_⟩
  have hne : (1 : ZMod 11) ≠ zeroShuffleProof.responses.sPrime := by decide
  exact (shuffle_tamper_detection 11 1 mg11 trivialVerifyingInst
    zeroShuffleProof (by decide) (by decide) hok).2.2.2 1 hne

/-- C10: apply_permutation_to_ciphertexts validates only that every entry
converts to an index strictly below n and never checks injectivity: it
succeeds exactly when all entries are in range; and for an index vector
given by any (possibly non-injective) index function, a target position no
entry maps to holds the identity-pair ciphertext, while a duplicated
target position holds the ciphertext of the last index mapping to it. -/
theorem apply_permutation_no_injectivity_check (q n : ℕ)
    (conv : ZMod q → Option ℕ) (cts : Fin n → Ct q)
    (perm : Fin n → ZMod q) :
    ((∃ o, applyPermutationToCiphertexts conv cts perm = .ok o) ↔
      ∀ j : Fin n, ∃ k, conv (perm j) = some k ∧ k < n)
    ∧ ∀ ixf : Fin n → Fin n, (∀ j, conv (perm j) = some (ixf j).val) →
        ∀ o, applyPermutationToCiphertexts conv cts perm = .ok o →
          (∀ p : Fin n, (∀ j, ixf j ≠ p) → o p = identityCiphertext q)
          ∧ ∀ j : Fin n, (∀ j2, j < j2 → ixf j2 ≠ ixf j) →
              o (ixf j) = cts j := by
  constructor
  · exact (applyPermGo_ok_iff conv cts perm n 0 _ (by omega)).trans
      ⟨fun h j => h j (Nat.zero_le _), fun h j2 _ => h j2⟩
  · intro ixf hconv o ho
    constructor
    · intro p hp
      exact applyPermGo_unassigned conv cts perm ixf hconv n 0 _ o p ho
        (fun j2 _ => hp j2)
    · intro j hlater
      exact applyPermGo_last conv cts perm ixf hconv n 0 _ o j (by omega)
        (Nat.zero_le _) hlater ho

/-- C10 witness: the theorem applied to the two-position non-injective
index vector (0, 0): the call succeeds, the duplicated target position 0
holds the second input ciphertext (the later entry overwrote the earlier
one), and the unassigned position 1 holds the identity pair. -/
theorem apply_permutation_witness :
    (∃ o, applyPermutationToCiphertexts scalarToIdx c10cts c10perm = .ok o)
    ∧ ∀ o, applyPermutationToCiphertexts scalarToIdx c10cts c10perm
        = .ok o → o 0 = c10cts 1 ∧ o 1 = identityCiphertext 11 := by
  have H := apply_permutation_no_injectivity_check 11 2 scalarToIdx
    c10cts c10perm
  constructor
  · exact H.1.mpr (by decide)
  · intro o ho
    have H2 := H.2 c10ixf (by decide) o ho
    exact ⟨H2.2 1 (by decide), H2.1 1 (by decide)⟩

end Exact
